import Mathlib

/-!
Verification development for the `nft-minter` repository.

The repository consists of one Python script, `src/scripts/MerkleTree.py`,
which is a thin CLI wrapper around a vendored Merkle-tree core
(`merklyTree.merkly`, not included under `src/`).  The CLI parses the
leaf list from `sys.argv[1]`, builds the tree, and writes a plain-text
report (`merkle.tree`) holding the root digest and, per leaf, the leaf
digest followed by its proof steps.

We embed:
- the Merkle core (construction, root, proof generation, verification),
  modelled from the specification since the core's source is not in
  `src/` (only the CLI that calls it is);
- the CLI layer (argument parsing, report writing, the dead `getRoot`
  helper) translated directly from `src/scripts/MerkleTree.py`.

Python strings/bytes are modelled as `List Char`; a digest is the output
of an abstract hash `H : List Char → List Char`.
-/

namespace NftMinter

/-- A leaf value: an opaque character/byte sequence. -/
abbrev Leaf := List Char

/-- A digest: output of the hash primitive, also a character/byte sequence. -/
abbrev Digest := List Char

/-- Which side of the running hash a sibling digest sits on. -/
inductive Side
  | left
  | right
deriving DecidableEq

/-- A proof step: a sibling digest together with its side. -/
abbrev ProofStep := Digest × Side

/-- Modelled from the spec: internal-node hashing `H(left || right)`,
left digest bytes preceding right digest bytes. -/
def hashPair (H : Digest → Digest) (l r : Digest) : Digest :=
  H (l ++ r)

/-- Modelled from the spec: (§4.1; the Merkle core `merklyTree.merkly` is missing from `src/`)
one construction round.  Adjacent pairs `(2k, 2k+1)` are hashed together;
an unpaired trailing element (odd level length) is duplicated and paired
with itself. -/
def nextLevel (H : Digest → Digest) : List Digest → List Digest
  | [] => []
  | [x] => [hashPair H x x]
  | x :: y :: rest => hashPair H x y :: nextLevel H rest

theorem nextLevel_length (H : Digest → Digest) (l : List Digest) :
    (nextLevel H l).length = (l.length + 1) / 2 := by
  induction l using nextLevel.induct H with
  | case1 => simp [nextLevel]
  | case2 x => simp [nextLevel]
  | case3 x y rest ih =>
    simp only [nextLevel, List.length_cons, ih]
    omega

/-- Modelled from the spec: (§4.1; the Merkle core `merklyTree.merkly` is missing from `src/`) all levels of the tree, bottom-up,
repeating `nextLevel` until a level has at most one element. -/
def buildLevels (H : Digest → Digest) (lvl : List Digest) : List (List Digest) :=
  if lvl.length ≤ 1 then [lvl]
  else lvl :: buildLevels H (nextLevel H lvl)
termination_by lvl.length
decreasing_by
  rw [nextLevel_length]
  omega

/-- Modelled from the spec: (§4.1; the Merkle core `merklyTree.merkly` is missing from `src/`) the root digest obtained by repeating
construction rounds until a single element remains. -/
def rootFrom (H : Digest → Digest) (lvl : List Digest) : Digest :=
  if lvl.length ≤ 1 then lvl.headD []
  else rootFrom H (nextLevel H lvl)
termination_by lvl.length
decreasing_by
  rw [nextLevel_length]
  omega

/-- Modelled from the spec: (§3; the Merkle core `merklyTree.merkly` is missing from `src/`) the tree owns its levels (index 0 the
leaf-digest level) and the stored root digest. -/
structure MTree where
  levels : List (List Digest)
  root : Digest

/-- The leaf-digest level of a tree. -/
def MTree.leafs (t : MTree) : List Digest :=
  t.levels.headD []

/-- Modelled from the spec: (§7; the Merkle core `merklyTree.merkly` is missing from `src/`) the error kinds of the Merkle core. -/
inductive MerkleError
  | emptyInput
  | leafNotFound
deriving DecidableEq

/-- Modelled from the spec: (§4.1; the Merkle core `merklyTree.merkly` is missing from `src/`) construction.  Fails with
`EmptyInputError` on zero leaves; otherwise hashes every leaf and
builds the levels bottom-up. -/
def makeTree (H : Digest → Digest) (leaves : List Leaf) : Except MerkleError MTree :=
  if leaves = [] then .error .emptyInput
  else
    .ok ⟨buildLevels H (leaves.map H), rootFrom H (leaves.map H)⟩

/-- Modelled from the spec: (§4.3; the Merkle core `merklyTree.merkly` is missing from `src/`) the proof step recorded at one level
for the node at position `p`: the sibling is at `p XOR 1` (`p+1` if `p`
even, `p-1` if `p` odd); out-of-bounds sibling means self-pairing; side
is LEFT iff the sibling position is below `p`. -/
def stepAt (lvl : List Digest) (p : Nat) : ProofStep :=
  let sib := if p % 2 = 0 then p + 1 else p - 1
  let sibDigest := if sib < lvl.length then lvl.getD sib [] else lvl.getD p []
  (sibDigest, if sib < p then Side.left else Side.right)

/-- Modelled from the spec: (§4.3; the Merkle core `merklyTree.merkly` is missing from `src/`) walk the stored levels from the leaf
level up to (but not including) the root level, recording one step per
level and halving the position. -/
def proofFromLevels : List (List Digest) → Nat → List ProofStep
  | [], _ => []
  | [_], _ => []
  | lvl :: rest, p => stepAt lvl p :: proofFromLevels rest (p / 2)

/-- Modelled from the spec: (§4.3; the Merkle core `merklyTree.merkly` is missing from `src/`) proof generation by leaf index. -/
def proofByIndex (t : MTree) (i : Nat) : List ProofStep :=
  proofFromLevels t.levels i

/-- Modelled from the spec: (§4.3; the Merkle core `merklyTree.merkly` is missing from `src/`) locate the lowest index at the leaf
level whose digest equals the given one. -/
def findLeafIdx (d : Digest) : List Digest → Option Nat
  | [] => none
  | x :: xs => if x = d then some 0 else (findLeafIdx d xs).map (· + 1)

/-- Modelled from the spec: (§4.3; the Merkle core `merklyTree.merkly` is missing from `src/`) proof generation by leaf value —
hash the value, locate the lowest matching leaf index (failing with
`LeafNotFoundError` when absent), and produce that index's proof. -/
def proofByValue (H : Digest → Digest) (t : MTree) (v : Leaf) :
    Except MerkleError (List ProofStep) :=
  match findLeafIdx (H v) t.leafs with
  | none => .error .leafNotFound
  | some i => .ok (proofByIndex t i)

/-- Modelled from the spec: (§4.4; the Merkle core `merklyTree.merkly` is missing from `src/`) one verification step — hash the
sibling onto the running digest on the recorded side. -/
def applyStep (H : Digest → Digest) (running : Digest) (st : ProofStep) : Digest :=
  match st.2 with
  | Side.left => H (st.1 ++ running)
  | Side.right => H (running ++ st.1)

/-- Modelled from the spec: (§4.4; the Merkle core `merklyTree.merkly` is missing from `src/`) replay all proof steps upward from a
starting digest. -/
def replay (H : Digest → Digest) (running : Digest) : List ProofStep → Digest
  | [] => running
  | st :: rest => replay H (applyStep H running st) rest

/-- Modelled from the spec: (§4.4; the Merkle core `merklyTree.merkly` is missing from `src/`) verification succeeds iff replaying
the proof from `H(leaf)` reproduces the expected root. -/
def verify (H : Digest → Digest) (leaf : Leaf) (pf : List ProofStep)
    (expected : Digest) : Bool :=
  decide (replay H (H leaf) pf = expected)

/-! ### CLI layer, translated from `src/scripts/MerkleTree.py` -/

/-- Python's `str.split(sep)` for a one-character separator, on the
character list of the string: `"".split(",") == [""]`, and every
separator occurrence opens a new segment. -/
def splitOnChar (c : Char) : List Char → List (List Char)
  | [] => [[]]
  | d :: ds =>
    match splitOnChar c ds with
    | [] => [[]]
    | s :: rest => if d = c then [] :: s :: rest else (d :: s) :: rest

/-- `src/scripts/MerkleTree.py` lines 7-9: take `sys.argv[1]`, slice off
the first and last character (`inputString[1:len(inputString)-1]`), and
split on `","`. -/
def parseLeaves (s : String) : List Leaf :=
  splitOnChar ',' ((s.data.drop 1).dropLast)

/-- The names bound at module level by `src/scripts/MerkleTree.py`:
the imports bind `hashlib`, `sys` and `merkly` (the `as merkly` alias of
`merklyTree.merkly`), and the module body binds the remaining names.
`MerkleTree` is not among them (the `from merkly.mtree import MerkleTree`
line is commented out). -/
def moduleNames : List String :=
  ["hashlib", "sys", "merkly", "inputString", "leavesString", "leaves",
   "mtree", "f", "i", "p", "leafProof", "getRoot", "getProof"]

/-- Python runtime errors relevant to the script. -/
inductive PyError
  | nameError
  | otherError
deriving DecidableEq

/-- `src/scripts/MerkleTree.py` lines 33-45: `getRoot()` re-parses
`sys.argv[1]` and then evaluates `MerkleTree(leaves)`.  Evaluating the
name `MerkleTree` resolves it against the module namespace; an unbound
name raises `NameError`. -/
def getRootModel (H : Digest → Digest) (argv1 : String) : Except PyError Digest :=
  let lv := parseLeaves argv1
  if "MerkleTree" ∈ moduleNames then
    match makeTree H lv with
    | .ok t => .ok t.root
    | .error _ => .error .otherError
  else .error .nameError

/-- Modelled from the spec: (§6; the core's step `repr` is missing from `src/` and the line format is
"consumer-defined" and the core's rendering is not under `src/`): a
newline-free rendering of one proof step, side tag then sibling digest. -/
def reprStep (st : ProofStep) : List Char :=
  (match st.2 with
   | Side.left => "left:".data
   | Side.right => "right:".data) ++ st.1

/-- The inner loop of `src/scripts/MerkleTree.py` lines 28-30: each proof
step is written as `repr(p)` followed by a newline. -/
def stepLines : List ProofStep → List Char
  | [] => []
  | st :: rest => reprStep st ++ '\n' :: stepLines rest

/-- `mtree.proof(value)` as used by the report loop (the value is always
one of the tree's own leaves, so the not-found branch never fires; it is
defaulted to the empty proof). -/
def reportProofFor (H : Digest → Digest) (t : MTree) (v : Leaf) : List ProofStep :=
  match proofByValue H t v with
  | .ok pf => pf
  | .error _ => []

/-- One iteration of the report loop, `src/scripts/MerkleTree.py`
lines 24-30: `"LEAF " + repr(i) + "\n"`, then the leaf digest
`mtree.leafs[i]` (with no trailing newline), then the proof steps of
`mtree.proof(leaves[i])`, one `repr(p) + "\n"` each. -/
def leafBlock (H : Digest → Digest) (t : MTree) (leaves : List Leaf) (i : Nat) :
    List Char :=
  "LEAF ".data ++ (Nat.repr i).data ++
    '\n' :: (t.leafs.getD i [] ++ stepLines (reportProofFor H t (leaves.getD i [])))

/-- The report loop over the given leaf indices (`for i in
range(len(mtree.leafs))`). -/
def blocksFor (H : Digest → Digest) (t : MTree) (leaves : List Leaf) :
    List Nat → List Char
  | [] => []
  | i :: is => leafBlock H t leaves i ++ blocksFor H t leaves is

/-- The full contents written to `merkle.tree` by
`src/scripts/MerkleTree.py` lines 15-31. -/
def report (H : Digest → Digest) (leaves : List Leaf) (t : MTree) : List Char :=
  "MERKLE ROOT \n".data ++ (t.root ++ "\n\n".data) ++ "MERKLE PROOFS \n".data ++
    blocksFor H t leaves (List.range t.leafs.length)

/-- The lines of a character sequence (split on newline). -/
def linesOf (l : List Char) : List (List Char) :=
  splitOnChar '\n' l

/-- Join a list of lines, terminating every line with a newline. -/
def linesJoinNl : List (List Char) → List Char
  | [] => []
  | l :: rest => l ++ '\n' :: linesJoinNl rest

/-- Join a list of segments with a separator character between them. -/
def joinSep (c : Char) : List (List Char) → List Char
  | [] => []
  | [x] => x
  | x :: y :: rest => x ++ c :: joinSep c (y :: rest)

/-- An input string of the form `[x1,...,xn]`. -/
def mkInput (xs : List (List Char)) : String :=
  ⟨'[' :: joinSep ',' xs ++ [']']⟩

/-- The hash produces digests that never contain a newline character. -/
def digestNewlineFree (H : Digest → Digest) : Prop :=
  ∀ s, '\n' ∉ H s

/-- The lines a leaf's digest and proof actually occupy in the report:
since the digest is written without a trailing newline, the first proof
step shares the digest's line; remaining steps get one line each. -/
def mergedLines (digest : Digest) (pf : List ProofStep) : List (List Char) :=
  match pf with
  | [] => [digest]
  | st :: rest => (digest ++ reprStep st) :: rest.map reprStep

/-- The report layout asserted by the specification: the root digest on
a line of its own, and for each leaf index the leaf digest on a line of
its own followed by the proof steps, one per line. -/
def reportClaimLines (H : Digest → Digest) (leaves : List Leaf) (t : MTree) : Prop :=
  t.root ∈ linesOf (report H leaves t) ∧
  ∀ i < t.leafs.length,
    (t.leafs.getD i [] :: (reportProofFor H t (leaves.getD i [])).map reprStep)
      <:+: linesOf (report H leaves t)

/-- The report layout the code actually produces: the root digest on a
line of its own, and for each leaf index the leaf digest merged with the
first proof step on one line, remaining steps one per line. -/
def reportMergedLines (H : Digest → Digest) (leaves : List Leaf) (t : MTree) : Prop :=
  t.root ∈ linesOf (report H leaves t) ∧
  ∀ i < t.leafs.length,
    mergedLines (t.leafs.getD i []) (reportProofFor H t (leaves.getD i []))
      <:+: linesOf (report H leaves t)

/-! ### Concrete hash functions for witnesses and counterexamples -/

/-- The identity hash: the simplest concrete instantiation of the hash
primitive, adequate for structural witnesses. -/
def idHash : Digest → Digest := fun l => l

/-- A concrete hash whose digests never contain a newline. -/
def nlHash : Digest → Digest := fun l => l.filter fun c => decide (c ≠ '\n')

/-- The tree value produced by a successful construction. -/
def treeOf (H : Digest → Digest) (ls : List Leaf) : MTree :=
  ⟨buildLevels H (ls.map H), rootFrom H (ls.map H)⟩

/-- An ASCII single-quote character (code 39). -/
def qc : Char := Char.ofNat 39

/-- Concrete two-leaf input for witnesses. -/
def leavesAB : List Leaf := [['a'], ['b']]

/-- Concrete three-leaf input for witnesses. -/
def leavesABC : List Leaf := [['a'], ['b'], ['c']]

/-- Concrete input with a duplicated leaf value for witnesses. -/
def leavesABA : List Leaf := [['a'], ['b'], ['a']]

/-- The literal value of the tree built from `leavesAB` with the
identity hash: leaf level, one internal (root) level, root digest. -/
def treeABLit : MTree := ⟨[[['a'], ['b']], [['a', 'b']]], ['a', 'b']⟩

/-! ### Helper lemmas: splitting -/

theorem splitOnChar_ne_nil (c : Char) (l : List Char) : splitOnChar c l ≠ [] := by
  induction l with
  | nil => simp [splitOnChar]
  | cons d ds ih =>
    rcases h : splitOnChar c ds with _ | ⟨s, rest⟩
    · exact absurd h ih
    · by_cases hd : d = c <;> simp [splitOnChar, h, hd]

theorem splitOnChar_cons_sep (c : Char) (l : List Char) :
    splitOnChar c (c :: l) = [] :: splitOnChar c l := by
  simp only [splitOnChar]
  rcases h : splitOnChar c l with _ | ⟨s, rest⟩
  · exact absurd h (splitOnChar_ne_nil c l)
  · simp

theorem splitOnChar_cons_ne (c d : Char) (l : List Char) (hd : d ≠ c) :
    splitOnChar c (d :: l) =
      ((splitOnChar c l).headD []).cons d :: (splitOnChar c l).tail := by
  simp only [splitOnChar]
  rcases h : splitOnChar c l with _ | ⟨s, rest⟩
  · exact absurd h (splitOnChar_ne_nil c l)
  · simp [hd]

theorem splitOnChar_append_sep (c : Char) (x y : List Char) :
    splitOnChar c (x ++ c :: y) = splitOnChar c x ++ splitOnChar c y := by
  induction x with
  | nil => simpa using splitOnChar_cons_sep c y
  | cons d ds ih =>
    by_cases hd : d = c
    · subst hd
      rw [List.cons_append, splitOnChar_cons_sep, splitOnChar_cons_sep, ih]
      simp
    · rw [List.cons_append, splitOnChar_cons_ne c d _ hd, splitOnChar_cons_ne c d _ hd,
        ih]
      rcases h : splitOnChar c ds with _ | ⟨s, rest⟩
      · exact absurd h (splitOnChar_ne_nil c ds)
      · simp

theorem splitOnChar_no_sep (c : Char) (l : List Char) (h : c ∉ l) :
    splitOnChar c l = [l] := by
  induction l with
  | nil => simp [splitOnChar]
  | cons d ds ih =>
    have hd : d ≠ c := fun hdc => h (hdc ▸ List.mem_cons_self d ds)
    rw [splitOnChar_cons_ne c d ds hd, ih (fun hm => h (List.mem_cons_of_mem d hm))]
    simp

theorem split_linesJoinNl_append (P : List (List Char)) (y : List Char)
    (hP : ∀ l ∈ P, '\n' ∉ l) :
    splitOnChar '\n' (linesJoinNl P ++ y) = P ++ splitOnChar '\n' y := by
  induction P with
  | nil => simp [linesJoinNl]
  | cons l rest ih =>
    have hl : '\n' ∉ l := hP l (List.mem_cons_self l rest)
    have hrest : ∀ m ∈ rest, '\n' ∉ m := fun m hm => hP m (List.mem_cons_of_mem l hm)
    calc splitOnChar '\n' (linesJoinNl (l :: rest) ++ y)
        = splitOnChar '\n' (l ++ '\n' :: (linesJoinNl rest ++ y)) := by
          simp [linesJoinNl]
      _ = splitOnChar '\n' l ++ splitOnChar '\n' (linesJoinNl rest ++ y) :=
          splitOnChar_append_sep _ _ _
      _ = [l] ++ (rest ++ splitOnChar '\n' y) := by
          rw [splitOnChar_no_sep _ _ hl, ih hrest]
      _ = (l :: rest) ++ splitOnChar '\n' y := by simp

theorem joinSep_split (c : Char) (xs : List (List Char)) (hne : xs ≠ [])
    (hc : ∀ x ∈ xs, c ∉ x) : splitOnChar c (joinSep c xs) = xs := by
  induction xs with
  | nil => exact absurd rfl hne
  | cons x rest ih =>
    rcases rest with _ | ⟨y, rest'⟩
    · simpa [joinSep] using splitOnChar_no_sep c x (hc x (List.mem_cons_self x []))
    · have hx : c ∉ x := hc x (List.mem_cons_self x _)
      have hrest : ∀ m ∈ y :: rest', c ∉ m := fun m hm => hc m (List.mem_cons_of_mem x hm)
      rw [joinSep, splitOnChar_append_sep, splitOnChar_no_sep c x hx,
        ih (by simp) hrest]
      simp

/-! ### Helper lemmas: the Merkle core -/

theorem applyStep_stepAt (H : Digest → Digest) (lvl : List Digest) (p : Nat)
    (hp : p < lvl.length) :
    applyStep H (lvl.getD p []) (stepAt lvl p) = (nextLevel H lvl).getD (p / 2) [] := by
  induction lvl using nextLevel.induct H generalizing p with
  | case1 => simp at hp
  | case2 x =>
    have hp0 : p = 0 := by simpa using hp
    subst hp0
    simp [stepAt, applyStep, nextLevel, hashPair]
  | case3 x y rest ih =>
    match p with
    | 0 =>
      have h1 : (1 : Nat) < (x :: y :: rest).length := by
        simp only [List.length_cons]; omega
      simp [stepAt, applyStep, nextLevel, hashPair, h1]
    | 1 =>
      have h0 : (0 : Nat) < (x :: y :: rest).length := by
        simp only [List.length_cons]; omega
      simp [stepAt, applyStep, nextLevel, hashPair, h0]
    | (q + 2) =>
      have hq : q < rest.length := by
        simp only [List.length_cons] at hp; omega
      have hdiv : (q + 2) / 2 = q / 2 + 1 := by omega
      have key := ih q hq
      have eg : (x :: y :: rest).getD (q + 2) [] = rest.getD q [] := by
        rw [show q + 2 = q + 1 + 1 from rfl, List.getD_cons_succ, List.getD_cons_succ]
      have en : (nextLevel H (x :: y :: rest)).getD ((q + 2) / 2) []
          = (nextLevel H rest).getD (q / 2) [] := by
        rw [hdiv]
        show (hashPair H x y :: nextLevel H rest).getD (q / 2 + 1) [] = _
        rw [List.getD_cons_succ]
      have es : stepAt (x :: y :: rest) (q + 2) = stepAt rest q := by
        by_cases hpar : q % 2 = 0
        · have hm : (q + 2) % 2 = 0 := by omega
          have hc : (q + 2 + 1 < (x :: y :: rest).length) ↔ (q + 1 < rest.length) := by
            simp only [List.length_cons]; omega
          have hg1 : (x :: y :: rest).getD (q + 2 + 1) [] = rest.getD (q + 1) [] := by
            rw [show q + 2 + 1 = q + 1 + 1 + 1 from rfl, List.getD_cons_succ,
              List.getD_cons_succ]
          have hs1 : ¬ (q + 2 + 1 < q + 2) := by omega
          have hs2 : ¬ (q + 1 < q) := by omega
          have hfix : (q + 2 < rest.length + 1) ↔ (q + 1 < rest.length) := by omega
          simp [stepAt, hm, hpar, hc, hg1, eg, hs1, hs2, hfix]
        · obtain ⟨r, rfl⟩ : ∃ r, q = r + 1 := ⟨q - 1, by omega⟩
          have hm : (r + 1 + 2) % 2 = 1 := by omega
          have hm' : (r + 1) % 2 = 1 := by omega
          simp [stepAt, hm, hm']
      rw [eg, es, en]
      exact key

theorem buildLevels_ne_nil (H : Digest → Digest) (lvl : List Digest) :
    buildLevels H lvl ≠ [] := by
  rw [buildLevels]
  split <;> simp

theorem proofFromLevels_cons (lvl : List Digest) (L : List (List Digest)) (p : Nat)
    (hL : L ≠ []) :
    proofFromLevels (lvl :: L) p = stepAt lvl p :: proofFromLevels L (p / 2) := by
  rcases L with _ | ⟨l2, rest⟩
  · exact absurd rfl hL
  · rfl

theorem replay_proofFromLevels (H : Digest → Digest) (lvl : List Digest)
    (hne : 1 ≤ lvl.length) (p : Nat) (hp : p < lvl.length) :
    replay H (lvl.getD p []) (proofFromLevels (buildLevels H lvl) p) = rootFrom H lvl := by
  induction lvl using buildLevels.induct H generalizing p with
  | case1 lvl hlen =>
    rw [buildLevels, if_pos hlen, rootFrom, if_pos hlen]
    rcases lvl with _ | ⟨x, rest⟩
    · simp at hne
    · have : rest = [] := by
        rcases rest with _ | _
        · rfl
        · simp at hlen
      subst this
      have hp0 : p = 0 := by simpa using hp
      subst hp0
      simp [proofFromLevels, replay]
  | case2 lvl hlen ih =>
    have hlen2 : 2 ≤ lvl.length := by omega
    rw [buildLevels, if_neg hlen,
      proofFromLevels_cons _ _ _ (buildLevels_ne_nil H (nextLevel H lvl)),
      rootFrom, if_neg hlen]
    simp only [replay]
    rw [applyStep_stepAt H lvl p hp]
    have hlen' : (nextLevel H lvl).length = (lvl.length + 1) / 2 := nextLevel_length H lvl
    exact ih (by omega) (p / 2) (by omega)

theorem buildLevels_head (H : Digest → Digest) (lvl : List Digest) :
    (buildLevels H lvl).headD [] = lvl := by
  rw [buildLevels]
  split <;> simp

theorem buildLevels_length (H : Digest → Digest) (lvl : List Digest)
    (hne : 1 ≤ lvl.length) :
    (buildLevels H lvl).length = Nat.clog 2 lvl.length + 1 := by
  induction lvl using buildLevels.induct H with
  | case1 lvl hlen =>
    have h1 : lvl.length = 1 := by omega
    rw [buildLevels, if_pos hlen]
    simp [h1]
  | case2 lvl hlen ih =>
    have hlen2 : 2 ≤ lvl.length := by omega
    have hnl : (nextLevel H lvl).length = (lvl.length + 1) / 2 := nextLevel_length H lvl
    rw [buildLevels, if_neg hlen, List.length_cons, ih (by omega),
      Nat.clog_of_two_le (by omega) hlen2]
    have : (lvl.length + 2 - 1) / 2 = (nextLevel H lvl).length := by omega
    rw [this]

theorem proofFromLevels_length (L : List (List Digest)) :
    ∀ p, (proofFromLevels L p).length = L.length - 1 := by
  induction L with
  | nil => intro p; rfl
  | cons l L' ih =>
    intro p
    rcases L' with _ | ⟨l2, rest⟩
    · rfl
    · simp only [proofFromLevels, List.length_cons, ih (p / 2)]
      omega

theorem makeTree_ok (H : Digest → Digest) (leaves : List Leaf) (t : MTree)
    (h : makeTree H leaves = .ok t) :
    leaves ≠ [] ∧ t.levels = buildLevels H (leaves.map H) ∧
      t.root = rootFrom H (leaves.map H) := by
  by_cases hne : leaves = []
  · simp [makeTree, hne] at h
  · simp [makeTree, hne] at h
    exact ⟨hne, by rw [← h], by rw [← h]⟩

theorem makeTree_leafs (H : Digest → Digest) (leaves : List Leaf) (t : MTree)
    (h : makeTree H leaves = .ok t) : t.leafs = leaves.map H := by
  obtain ⟨-, hlv, -⟩ := makeTree_ok H leaves t h
  rw [MTree.leafs, hlv, buildLevels_head]

theorem getD_map_lt (f : Leaf → Digest) (l : List Leaf) (i : Nat) (h : i < l.length) :
    (l.map f).getD i [] = f (l.getD i []) := by
  rw [List.getD_eq_getElem _ _ (by simpa using h), List.getD_eq_getElem _ _ h,
    List.getElem_map]

theorem findLeafIdx_spec (d : Digest) (l : List Digest) :
    ∀ i, findLeafIdx d l = some i →
      l.getD i [] = d ∧ ∀ j < i, l.getD j [] ≠ d := by
  induction l with
  | nil => intro i h; simp [findLeafIdx] at h
  | cons x xs ih =>
    intro i h
    by_cases hx : x = d
    · simp only [findLeafIdx, if_pos hx, Option.some.injEq] at h
      subst h
      exact ⟨by simpa using hx, by omega⟩
    · simp only [findLeafIdx, if_neg hx] at h
      rcases hfi : findLeafIdx d xs with _ | k
      · rw [hfi] at h; simp at h
      · rw [hfi] at h
        simp at h
        subst h
        obtain ⟨h1, h2⟩ := ih k hfi
        refine ⟨by simpa using h1, ?_⟩
        intro j hj
        cases j with
        | zero => simpa using hx
        | succ j' =>
          simp only [List.getD_cons_succ]
          exact h2 j' (by omega)

theorem findLeafIdx_mem (d : Digest) (l : List Digest) (h : d ∈ l) :
    ∃ i, findLeafIdx d l = some i := by
  induction l with
  | nil => simp at h
  | cons x xs ih =>
    by_cases hx : x = d
    · exact ⟨0, by simp [findLeafIdx, hx]⟩
    · have hxs : d ∈ xs := by
        rcases List.mem_cons.mp h with h' | h'
        · exact absurd h'.symm hx
        · exact h'
      obtain ⟨i, hi⟩ := ih hxs
      exact ⟨i + 1, by simp [findLeafIdx, hx, hi]⟩

theorem makeTree_empty_error_iff (H : Digest → Digest) (leaves : List Leaf) :
    makeTree H leaves = .error .emptyInput ↔ leaves = [] := by
  constructor
  · intro h
    by_cases hne : leaves = []
    · exact hne
    · simp [makeTree, hne] at h
  · intro h
    subst h
    rfl

/-! ### Helper lemmas: newline-freeness of digests and proof lines -/

theorem nextLevel_nlFree (H : Digest → Digest) (hH : digestNewlineFree H)
    (lvl : List Digest) : ∀ d ∈ nextLevel H lvl, '\n' ∉ d := by
  induction lvl using nextLevel.induct H with
  | case1 => simp [nextLevel]
  | case2 x =>
    intro d hd
    simp only [nextLevel, List.mem_singleton] at hd
    subst hd
    exact hH (x ++ x)
  | case3 x y rest ih =>
    intro d hd
    rcases List.mem_cons.mp hd with h | h
    · subst h
      exact hH (x ++ y)
    · exact ih d h

theorem buildLevels_nlFree (H : Digest → Digest) (hH : digestNewlineFree H)
    (lvl : List Digest) :
    (∀ d ∈ lvl, '\n' ∉ d) → ∀ L ∈ buildLevels H lvl, ∀ d ∈ L, '\n' ∉ d := by
  induction lvl using buildLevels.induct H with
  | case1 lvl hlen =>
    intro hlvl L hL
    rw [buildLevels, if_pos hlen] at hL
    simp only [List.mem_singleton] at hL
    subst hL
    exact hlvl
  | case2 lvl hlen ih =>
    intro hlvl L hL
    rw [buildLevels, if_neg hlen] at hL
    rcases List.mem_cons.mp hL with h | h
    · subst h
      exact hlvl
    · exact ih (nextLevel_nlFree H hH lvl) L h

theorem getD_nlFree (l : List Digest) (h : ∀ d ∈ l, '\n' ∉ d) (k : Nat) :
    '\n' ∉ l.getD k [] := by
  by_cases hk : k < l.length
  · rw [List.getD_eq_getElem _ _ hk]
    exact h _ (List.getElem_mem hk)
  · rw [List.getD_eq_default _ _ (by omega)]
    simp

theorem headD_nlFree (l : List Digest) (h : ∀ d ∈ l, '\n' ∉ d) :
    '\n' ∉ l.headD [] := by
  cases l with
  | nil => simp
  | cons x xs =>
    simp only [List.headD_cons]
    exact h x (List.mem_cons_self x xs)

theorem rootFrom_nlFree (H : Digest → Digest) (hH : digestNewlineFree H)
    (lvl : List Digest) :
    (∀ d ∈ lvl, '\n' ∉ d) → '\n' ∉ rootFrom H lvl := by
  induction lvl using rootFrom.induct H with
  | case1 lvl hlen =>
    intro hlvl
    rw [rootFrom, if_pos hlen]
    exact headD_nlFree lvl hlvl
  | case2 lvl hlen ih =>
    intro hlvl
    rw [rootFrom, if_neg hlen]
    exact ih (nextLevel_nlFree H hH lvl)

theorem proofFromLevels_nlFree (L : List (List Digest)) :
    ∀ p, (∀ lvl ∈ L, ∀ d ∈ lvl, '\n' ∉ d) →
      ∀ st ∈ proofFromLevels L p, '\n' ∉ st.1 := by
  induction L with
  | nil =>
    intro p hL st hst
    simp [proofFromLevels] at hst
  | cons lvl L' ih =>
    intro p hL st hst
    rcases L' with _ | ⟨l2, rest⟩
    · simp [proofFromLevels] at hst
    · rcases List.mem_cons.mp hst with h | h
      · subst h
        have hlvl := hL lvl (List.mem_cons_self _ _)
        simp only [stepAt]
        split <;> split <;> exact getD_nlFree lvl hlvl _
      · exact ih (p / 2) (fun l hl => hL l (List.mem_cons_of_mem _ hl)) st h

theorem reprStep_nlFree (st : ProofStep) (h : '\n' ∉ st.1) : '\n' ∉ reprStep st := by
  obtain ⟨d, side⟩ := st
  intro hmem
  cases side <;> simp only [reprStep] at hmem <;>
    rcases List.mem_append.mp hmem with hm | hm <;>
    first
      | (revert hm; decide)
      | exact h hm

theorem mergedLines_nlFree (digest : Digest) (pf : List ProofStep)
    (hd : '\n' ∉ digest) (hpf : ∀ st ∈ pf, '\n' ∉ st.1) :
    ∀ l ∈ mergedLines digest pf, '\n' ∉ l := by
  intro l hl
  rcases pf with _ | ⟨st, rest⟩
  · simp only [mergedLines, List.mem_singleton] at hl
    subst hl
    exact hd
  · rw [mergedLines] at hl
    rcases List.mem_cons.mp hl with h | h
    · subst h
      intro hmem
      rcases List.mem_append.mp hmem with hm | hm
      · exact hd hm
      · exact reprStep_nlFree st (hpf st (List.mem_cons_self _ _)) hm
    · obtain ⟨st', hst', rfl⟩ := List.mem_map.mp h
      exact reprStep_nlFree st' (hpf st' (List.mem_cons_of_mem _ hst'))

/-! ### Helper lemmas: report layout -/

theorem stepLines_eq (pf : List ProofStep) :
    stepLines pf = linesJoinNl (pf.map reprStep) := by
  induction pf with
  | nil => rfl
  | cons st rest ih => simp [stepLines, linesJoinNl, ih]

theorem content_eq (digest : Digest) (st : ProofStep) (rest : List ProofStep) :
    digest ++ stepLines (st :: rest) = linesJoinNl (mergedLines digest (st :: rest)) := by
  simp [stepLines, mergedLines, linesJoinNl, stepLines_eq, List.append_assoc]

theorem blocksFor_decomp (H : Digest → Digest) (t : MTree) (leaves : List Leaf)
    (i : Nat) (is : List Nat) (h : i ∈ is) :
    ∃ x y, blocksFor H t leaves is = x ++ (leafBlock H t leaves i ++ y) := by
  induction is with
  | nil => simp at h
  | cons j is' ih =>
    rcases List.mem_cons.mp h with hj | hj
    · subst hj
      exact ⟨[], blocksFor H t leaves is', by simp [blocksFor]⟩
    · obtain ⟨x, y, hxy⟩ := ih hj
      exact ⟨leafBlock H t leaves j ++ x, y, by simp [blocksFor, hxy, List.append_assoc]⟩

theorem infix_append_left (X : List (List Char)) {l L : List (List Char)}
    (h : l <:+: L) : l <:+: X ++ L := by
  obtain ⟨s, u, hsu⟩ := h
  exact ⟨X ++ s, u, by rw [← hsu]; simp [List.append_assoc]⟩

theorem report_eq (H : Digest → Digest) (leaves : List Leaf) (t : MTree) :
    report H leaves t =
      "MERKLE ROOT ".data ++ '\n' ::
        (t.root ++ '\n' :: '\n' ::
          ("MERKLE PROOFS ".data ++ '\n' ::
            blocksFor H t leaves (List.range t.leafs.length))) := by
  have e1 : "MERKLE ROOT \n".data = "MERKLE ROOT ".data ++ ['\n'] := by decide
  have e2 : "\n\n".data = ['\n', '\n'] := by decide
  have e3 : "MERKLE PROOFS \n".data = "MERKLE PROOFS ".data ++ ['\n'] := by decide
  rw [report, e1, e2, e3]
  simp [List.append_assoc]

theorem linesOf_report (H : Digest → Digest) (leaves : List Leaf) (t : MTree)
    (hroot : '\n' ∉ t.root) :
    linesOf (report H leaves t) =
      ["MERKLE ROOT ".data, t.root, [], "MERKLE PROOFS ".data] ++
        splitOnChar '\n' (blocksFor H t leaves (List.range t.leafs.length)) := by
  rw [linesOf, report_eq, splitOnChar_append_sep,
    splitOnChar_no_sep _ _ (by decide : '\n' ∉ "MERKLE ROOT ".data),
    splitOnChar_append_sep, splitOnChar_no_sep _ _ hroot, splitOnChar_cons_sep,
    splitOnChar_append_sep,
    splitOnChar_no_sep _ _ (by decide : '\n' ∉ "MERKLE PROOFS ".data)]
  simp

theorem reportProofFor_eq (H : Digest → Digest) (leaves : List Leaf) (t : MTree)
    (hok : makeTree H leaves = .ok t) (i : Nat) (hi : i < leaves.length) :
    ∃ j, reportProofFor H t (leaves.getD i []) = proofFromLevels t.levels j := by
  have hleafs := makeTree_leafs H leaves t hok
  have hi' : i < (leaves.map H).length := by simpa using hi
  have hmem : H (leaves.getD i []) ∈ t.leafs := by
    rw [hleafs, ← getD_map_lt H leaves i hi, List.getD_eq_getElem _ _ hi']
    exact List.getElem_mem hi'
  obtain ⟨j, hj⟩ := findLeafIdx_mem _ _ hmem
  refine ⟨j, ?_⟩
  rw [reportProofFor, proofByValue, hj]
  rfl

theorem reportProofFor_ne_nil (H : Digest → Digest) (leaves : List Leaf) (t : MTree)
    (hok : makeTree H leaves = .ok t) (hlen2 : 2 ≤ leaves.length) (i : Nat)
    (hi : i < leaves.length) :
    reportProofFor H t (leaves.getD i []) ≠ [] := by
  obtain ⟨j, hj⟩ := reportProofFor_eq H leaves t hok i hi
  obtain ⟨hne, hlv, -⟩ := makeTree_ok H leaves t hok
  rw [hj]
  intro hcontra
  have hlen := proofFromLevels_length t.levels j
  rw [hcontra] at hlen
  rw [hlv, buildLevels_length H _ (by simp only [List.length_map]; omega)] at hlen
  simp only [List.length_map, List.length_nil] at hlen
  have hpos : 0 < Nat.clog 2 leaves.length := Nat.clog_pos (by omega) hlen2
  omega

/-! ### Claim theorems -/

/-- C1: for every tree built from a non-empty leaf sequence and every leaf
index `i`, verifying `(leaf[i], proof for i, tree root)` succeeds —
replaying the proof upward from `H(leaf[i])` reproduces the stored root. -/
theorem roundtrip_verify_ok (H : Digest → Digest) (leaves : List Leaf) (t : MTree)
    (i : Nat) (hok : makeTree H leaves = .ok t) (hi : i < leaves.length) :
    verify H (leaves.getD i []) (proofByIndex t i) t.root = true := by
  obtain ⟨hne, hlv, hrt⟩ := makeTree_ok H leaves t hok
  have hi' : i < (leaves.map H).length := by simpa using hi
  have h1 : 1 ≤ (leaves.map H).length := by
    simp only [List.length_map]
    have := List.length_pos.mpr hne
    omega
  have hr := replay_proofFromLevels H (leaves.map H) h1 i hi'
  rw [getD_map_lt H leaves i hi] at hr
  rw [verify, proofByIndex, hlv, hrt]
  exact decide_eq_true hr

theorem roundtrip_verify_ok_witness :
    makeTree idHash leavesABC = .ok (treeOf idHash leavesABC) ∧
    1 < leavesABC.length ∧
    verify idHash (leavesABC.getD 1 []) (proofByIndex (treeOf idHash leavesABC) 1)
      (treeOf idHash leavesABC).root = true :=
  ⟨rfl, by decide,
    roundtrip_verify_ok idHash leavesABC (treeOf idHash leavesABC) 1 rfl (by decide)⟩

/-- C2: building from three leaves duplicates the last digest to pair it
with itself: level 1 is `[H(H a ++ H b), H(H c ++ H c)]` and the root is
`H(level1[0] ++ level1[1])`, left digest bytes before right digest bytes. -/
theorem odd_count_duplication (H : Digest → Digest) (a b c : Leaf) :
    makeTree H [a, b, c] = .ok (treeOf H [a, b, c]) ∧
    (treeOf H [a, b, c]).levels.getD 1 [] = [H (H a ++ H b), H (H c ++ H c)] ∧
    (treeOf H [a, b, c]).root = H (H (H a ++ H b) ++ H (H c ++ H c)) := by
  refine ⟨rfl, ?_, ?_⟩
  · simp [treeOf, buildLevels, nextLevel, hashPair]
  · simp [treeOf, rootFrom, nextLevel, hashPair]

/-- C4: construction fails with `EmptyInputError` exactly on the empty
leaf sequence; it never proceeds on empty input and never raises it on
non-empty input. -/
theorem empty_input_error (H : Digest → Digest) (leaves : List Leaf) :
    makeTree H leaves = .error .emptyInput ↔ leaves = [] :=
  makeTree_empty_error_iff H leaves

theorem empty_input_error_witness :
    makeTree idHash ([] : List Leaf) = .error .emptyInput ∧
    ¬ makeTree idHash leavesAB = .error .emptyInput :=
  ⟨(empty_input_error idHash []).mpr rfl,
    fun h => absurd ((empty_input_error idHash leavesAB).mp h) (by decide)⟩

/-- C5: every proof of a tree with `n` leaves has exactly
`ceil(log2 n)` steps (`Nat.clog 2 n`), which is 0 when `n = 1`. -/
theorem proof_length_eq_clog (H : Digest → Digest) (leaves : List Leaf) (t : MTree)
    (i : Nat) (hok : makeTree H leaves = .ok t) (_hi : i < leaves.length) :
    (proofByIndex t i).length = Nat.clog 2 leaves.length ∧
    (leaves.length = 1 → (proofByIndex t i).length = 0) := by
  obtain ⟨hne, hlv, -⟩ := makeTree_ok H leaves t hok
  have h1 : 1 ≤ (leaves.map H).length := by
    simp only [List.length_map]
    have := List.length_pos.mpr hne
    omega
  have hmain : (proofByIndex t i).length = Nat.clog 2 leaves.length := by
    rw [proofByIndex, hlv, proofFromLevels_length _ i, buildLevels_length H _ h1]
    simp
  refine ⟨hmain, fun hone => ?_⟩
  rw [hmain, hone]
  simp

theorem proof_length_eq_clog_witness :
    makeTree idHash leavesABC = .ok (treeOf idHash leavesABC) ∧
    1 < leavesABC.length ∧
    (proofByIndex (treeOf idHash leavesABC) 1).length = Nat.clog 2 leavesABC.length :=
  ⟨rfl, by decide,
    (proof_length_eq_clog idHash leavesABC (treeOf idHash leavesABC) 1 rfl (by decide)).1⟩

/-- C6: a tree built from exactly one leaf has root `H(leaf)`, a single
(leaf) level — zero internal levels — and the empty proof at index 0. -/
theorem single_leaf_identity (H : Digest → Digest) (v : Leaf) :
    makeTree H [v] = .ok ⟨[[H v]], H v⟩ ∧
    (⟨[[H v]], H v⟩ : MTree).levels.length = 1 ∧
    proofByIndex ⟨[[H v]], H v⟩ 0 = [] := by
  refine ⟨?_, rfl, rfl⟩
  simp [makeTree, buildLevels, rootFrom]

/-- C7: proof generation by leaf value returns the proof for the lowest
index whose leaf digest matches; earlier indices never match, so in the
CLI loop duplicate leaf values all receive the lowest-index proof. -/
theorem duplicate_leaf_lowest_index (H : Digest → Digest) (t : MTree) (v : Leaf)
    (i : Nat) (hfind : findLeafIdx (H v) t.leafs = some i) :
    proofByValue H t v = .ok (proofByIndex t i) ∧
    reportProofFor H t v = proofByIndex t i ∧
    t.leafs.getD i [] = H v ∧
    ∀ j < i, t.leafs.getD j [] ≠ H v := by
  obtain ⟨h1, h2⟩ := findLeafIdx_spec (H v) t.leafs i hfind
  refine ⟨?_, ?_, h1, h2⟩
  · rw [proofByValue, hfind]
  · rw [reportProofFor, proofByValue, hfind]

theorem duplicate_leaf_lowest_index_witness :
    findLeafIdx (idHash ['a']) (treeOf idHash leavesABA).leafs = some 0 ∧
    proofByValue idHash (treeOf idHash leavesABA) ['a']
      = .ok (proofByIndex (treeOf idHash leavesABA) 0) := by
  have hleafs : (treeOf idHash leavesABA).leafs = leavesABA := by
    show (buildLevels idHash (leavesABA.map idHash)).headD [] = leavesABA
    rw [buildLevels_head]
    rfl
  have hfind : findLeafIdx (idHash ['a']) (treeOf idHash leavesABA).leafs = some 0 := by
    rw [hleafs]
    decide
  exact ⟨hfind,
    (duplicate_leaf_lowest_index idHash (treeOf idHash leavesABA) ['a'] 0 hfind).1⟩

/-- C8: for every command-line input string, stripping one character from
each end and splitting on commas yields at least one leaf (Python's
`str.split` never returns an empty list), so the empty-input error branch
is unreachable from the CLI; the input `[]` yields the single empty leaf. -/
theorem cli_parse_never_empty (s : String) :
    1 ≤ (parseLeaves s).length ∧
    (∀ H, makeTree H (parseLeaves s) ≠ .error .emptyInput) ∧
    parseLeaves "[]" = [[]] := by
  have h1 : parseLeaves s ≠ [] := splitOnChar_ne_nil ',' _
  refine ⟨List.length_pos.mpr h1, ?_, by decide⟩
  intro H hcontra
  exact h1 ((makeTree_empty_error_iff H (parseLeaves s)).mp hcontra)

theorem cli_parse_never_empty_witness :
    1 ≤ (parseLeaves "[]").length ∧
    (∀ H, makeTree H (parseLeaves "[]") ≠ .error .emptyInput) ∧
    parseLeaves "[]" = [[]] :=
  cli_parse_never_empty "[]"

/-- C9: every call of `getRoot` resolves the unbound name `MerkleTree`
against the module namespace (which binds only `merkly`), so it raises
`NameError` and never returns a root digest. -/
theorem getRoot_raises_nameError (H : Digest → Digest) (s : String) :
    getRootModel H s = .error .nameError ∧ ∀ d, getRootModel H s ≠ .ok d := by
  have hmem : "MerkleTree" ∉ moduleNames := by decide
  refine ⟨by simp [getRootModel, hmem], fun d h => ?_⟩
  simp [getRootModel, hmem] at h

theorem getRoot_raises_nameError_witness :
    getRootModel idHash "[a,b]" = .error .nameError ∧
    ∀ d, getRootModel idHash "[a,b]" ≠ .ok d :=
  getRoot_raises_nameError idHash "[a,b]"

/-- C10: the argument parser removes exactly one character from each end
and splits on every comma: an input `[x1,...,xn]` with comma-free parts
parses back to exactly `[x1, ..., xn]`, quote characters are retained
inside leaves (`['a','b']` parses to `'a'` and `'b'` including the
quotes), and a part containing a comma is split into several leaves. -/
theorem cli_parse_exact_split :
    (∀ xs : List (List Char), xs ≠ [] → (∀ x ∈ xs, ',' ∉ x) →
      parseLeaves (mkInput xs) = xs) ∧
    parseLeaves (mkInput [[qc, 'a', qc], [qc, 'b', qc]])
      = [[qc, 'a', qc], [qc, 'b', qc]] ∧
    parseLeaves (mkInput [['x', ',', 'y']]) = [['x'], ['y']] := by
  refine ⟨?_, by decide, by decide⟩
  intro xs hne hc
  show splitOnChar ',' ((('[' :: (joinSep ',' xs ++ [']'])).drop 1).dropLast) = xs
  rw [List.drop_one, List.tail_cons, List.dropLast_concat]
  exact joinSep_split ',' xs hne hc

theorem cli_parse_exact_split_witness :
    ([['a', 'b'], ['c']] : List (List Char)) ≠ [] ∧
    (∀ x ∈ ([['a', 'b'], ['c']] : List (List Char)), ',' ∉ x) ∧
    parseLeaves (mkInput [['a', 'b'], ['c']]) = [['a', 'b'], ['c']] :=
  ⟨by decide, by decide, cli_parse_exact_split.1 [['a', 'b'], ['c']] (by decide) (by decide)⟩

theorem split_embed (x A B J y : List Char) (P : List (List Char))
    (hP : ∀ l ∈ P, '\n' ∉ l) (hJ : J = linesJoinNl P) :
    P <:+: splitOnChar '\n' (x ++ ((A ++ (B ++ '\n' :: J)) ++ y)) := by
  have hshape : x ++ ((A ++ (B ++ '\n' :: J)) ++ y)
      = (x ++ (A ++ B)) ++ '\n' :: (J ++ y) := by
    simp [List.append_assoc]
  rw [hshape, hJ, splitOnChar_append_sep, split_linesJoinNl_append _ _ hP]
  exact infix_append_left _ ⟨[], splitOnChar '\n' y, by simp⟩

theorem nlHash_free : digestNewlineFree nlHash := by
  intro s hmem
  have h := List.mem_filter.mp hmem
  simp at h

theorem treeOf_AB_eval : treeOf idHash leavesAB = treeABLit := by
  simp [treeOf, treeABLit, leavesAB, idHash, buildLevels, nextLevel, hashPair, rootFrom]

/-- C3 counterexample: for the two-leaf input `['a'],['b']` (identity
hash) the report does not put each leaf digest on a line of its own
followed by its proof steps one per line — the digest is written without
a trailing newline, so the first proof step shares its line. -/
theorem report_layout_counterexample :
    makeTree idHash leavesAB = .ok treeABLit ∧
    ¬ reportClaimLines idHash leavesAB treeABLit := by
  constructor
  · rw [show makeTree idHash leavesAB = .ok (treeOf idHash leavesAB) from rfl,
      treeOf_AB_eval]
  · unfold reportClaimLines
    decide

/-- C3 (amended): for every leaf list, the report contains the root
digest on one line, and for each leaf index the leaf's own digest with
the first proof step appended on the same line (the file writer emits no
newline after the digest) followed by the remaining proof steps one per
line; the digest stands on a line of its own exactly when its proof is
empty (single-leaf tree). -/
theorem report_layout_merged (H : Digest → Digest) (leaves : List Leaf) (t : MTree)
    (hNl : digestNewlineFree H) (hok : makeTree H leaves = .ok t) :
    reportMergedLines H leaves t := by
  obtain ⟨hne, hlv, hrt⟩ := makeTree_ok H leaves t hok
  have hleafs := makeTree_leafs H leaves t hok
  have hlvlNl : ∀ d ∈ leaves.map H, '\n' ∉ d := by
    intro d hd
    obtain ⟨v, -, rfl⟩ := List.mem_map.mp hd
    exact hNl v
  have hrootNl : '\n' ∉ t.root := by
    rw [hrt]
    exact rootFrom_nlFree H hNl _ hlvlNl
  have hlevelsNl : ∀ L ∈ t.levels, ∀ d ∈ L, '\n' ∉ d := by
    rw [hlv]
    exact buildLevels_nlFree H hNl _ hlvlNl
  have hlines := linesOf_report H leaves t hrootNl
  constructor
  · rw [hlines]
    simp
  · intro i hi
    have hi' : i < leaves.length := by
      rw [hleafs, List.length_map] at hi
      exact hi
    have hdNl : '\n' ∉ t.leafs.getD i [] := by
      rw [hleafs]
      exact getD_nlFree _ hlvlNl i
    obtain ⟨j, hj⟩ := reportProofFor_eq H leaves t hok i hi'
    have hstepsNl : ∀ st ∈ reportProofFor H t (leaves.getD i []), '\n' ∉ st.1 := by
      rw [hj]
      exact proofFromLevels_nlFree t.levels j hlevelsNl
    have hmlNl := mergedLines_nlFree _ _ hdNl hstepsNl
    rw [hlines]
    apply infix_append_left
    by_cases hone : leaves.length = 1
    · have hi0 : i = 0 := by omega
      subst hi0
      have htl : t.leafs.length = 1 := by
        rw [hleafs, List.length_map, hone]
      have hlevlen : t.levels.length = 1 := by
        rw [hlv, buildLevels_length H _ (by simp only [List.length_map]; omega),
          List.length_map, hone]
        simp
      have hpfnil : reportProofFor H t (leaves.getD 0 []) = [] := by
        have hl := proofFromLevels_length t.levels j
        rw [hlevlen] at hl
        rw [hj]
        exact List.length_eq_zero.mp hl
      rw [hpfnil, htl, show List.range 1 = [0] from rfl,
        show blocksFor H t leaves [0] = leafBlock H t leaves 0 ++ [] from rfl,
        List.append_nil, leafBlock, hpfnil,
        show stepLines [] = [] from rfl, List.append_nil]
      rw [splitOnChar_append_sep, splitOnChar_no_sep _ _ hdNl]
      exact ⟨splitOnChar '\n' ("LEAF ".data ++ (Nat.repr 0).data), [],
        by simp [mergedLines]⟩
    · have hlen2 : 2 ≤ leaves.length := by
        have := List.length_pos.mpr hne
        omega
      have hpfne := reportProofFor_ne_nil H leaves t hok hlen2 i hi'
      rcases hpf : reportProofFor H t (leaves.getD i []) with _ | ⟨st, rest⟩
      · exact absurd hpf hpfne
      · rw [hpf] at hmlNl
        obtain ⟨x, y, hxy⟩ := blocksFor_decomp H t leaves i
          (List.range t.leafs.length) (List.mem_range.mpr hi)
        rw [hxy, leafBlock, hpf]
        exact split_embed x "LEAF ".data (Nat.repr i).data _ y
          (mergedLines (t.leafs.getD i []) (st :: rest)) hmlNl
          (content_eq (t.leafs.getD i []) st rest)

theorem report_layout_merged_witness :
    digestNewlineFree nlHash ∧
    makeTree nlHash leavesAB = .ok (treeOf nlHash leavesAB) ∧
    reportMergedLines nlHash leavesAB (treeOf nlHash leavesAB) :=
  ⟨nlHash_free, rfl,
    report_layout_merged nlHash leavesAB (treeOf nlHash leavesAB) nlHash_free rfl⟩

end NftMinter
